import Mathlib

/-!
Verification of the digital-evidence-logging-system repository against its
specification.  Each definition is a shallow embedding of a function of the
repository's source; theorems settle the spec's claims about them.

Source files embedded here:
* `fe/src/components/EvidenceList.js` — feed reconciliation (dedupe, sort, live merge)
* `fe/src/components/EvidenceVerify.js` — verify-by-file / verify-by-typed-hash
* `fe/server/server.js` — upload handler and the read-only gate on `/files`
* `contracts/contracts/EvidenceRegistry.sol` — the append-only evidence ledger
-/

namespace EvidenceLog

/-! ## Feed records (`formatEvent` output shape, EvidenceList.js) -/

/-- A parsed feed record as produced by `formatEvent` in
`fe/src/components/EvidenceList.js`: `id` is the string
`"{blockNumber}-{logIndex}"`, `timestamp` is the event's timestamp in seconds
(0 meaning unknown).  Rendering-only fields (`timeString`, `note`, `fileUrl`)
are omitted; they play no role in dedupe/sort/match. -/
structure Row where
  id : String
  submittedBy : String
  hash : String
  metadata : String
  timestamp : Nat
  deriving DecidableEq

/-- Auxiliary loop of `dedupeById` (EvidenceList.js lines 153–157): the JS
code walks `rows` keeping a `seen` set of ids and pushes a row to `out` only
when its id has not been seen yet. -/
def dedupeGo (seen : List String) : List Row → List Row
  | [] => []
  | r :: rs =>
    if r.id ∈ seen then dedupeGo seen rs
    else r :: dedupeGo (r.id :: seen) rs

/-- Embeds `dedupeById` of EvidenceList.js: keep the first occurrence of each
id, in input order. -/
def dedupeById (rows : List Row) : List Row := dedupeGo [] rows

/-- The comparator of `sortByTimestamp` (EvidenceList.js lines 158–160):
`(a, b) => b.timestamp - a.timestamp`, i.e. `a` may come before `b`
exactly when `b.timestamp ≤ a.timestamp` (descending). -/
def tsLe (a b : Row) : Bool := decide (b.timestamp ≤ a.timestamp)

/-- Embeds `sortByTimestamp` with its default `newestFirst = true`:
JavaScript `Array.prototype.sort` is required (ES2019) to be stable and, with
this consistent comparator, to produce the descending-by-timestamp order, so a
stable merge sort under `tsLe` is its exact denotation. -/
def sortByTimestamp (rows : List Row) : List Row := rows.mergeSort tsLe

/-- Embeds the history branch of the `useEffect` in EvidenceList.js (line 42):
`setItems(sortByTimestamp(dedupeById(history)))`. -/
def initialItems (history : List Row) : List Row :=
  sortByTimestamp (dedupeById history)

/-- Embeds the live handler `onEvent` (EvidenceList.js lines 47–51): the newly
arrived row is prepended to the previous items and the merge step is re-run:
`setItems(prev => sortByTimestamp(dedupeById([row, ...prev])))`. -/
def onEvent (row : Row) (prev : List Row) : List Row :=
  sortByTimestamp (dedupeById (row :: prev))

/-- A sequence of live deliveries applied in arrival order to the state left
by the historical backfill. -/
def applyLive (live : List Row) (init : List Row) : List Row :=
  live.foldl (fun prev row => onEvent row prev) init

/-! ## Basic lemmas about `dedupeGo` -/

theorem dedupeGo_sublist (rows : List Row) :
    ∀ seen, (dedupeGo seen rows).Sublist rows := by
  induction rows with
  | nil => intro seen; simp [dedupeGo]
  | cons r rs ih =>
    intro seen
    by_cases h : r.id ∈ seen
    · simp only [dedupeGo, if_pos h]
      exact (ih seen).trans (List.sublist_cons_self r rs)
    · simp only [dedupeGo, if_neg h]
      exact (ih (r.id :: seen)).cons₂ r

theorem mem_of_mem_dedupeGo {rows : List Row} {seen : List String} {r : Row}
    (h : r ∈ dedupeGo seen rows) : r ∈ rows :=
  (dedupeGo_sublist rows seen).mem h

/-- Characterisation of the ids surviving `dedupeGo`: exactly the input ids
that are not already in `seen`. -/
theorem mem_map_id_dedupeGo (rows : List Row) :
    ∀ seen x, x ∈ (dedupeGo seen rows).map Row.id ↔
      x ∈ rows.map Row.id ∧ x ∉ seen := by
  induction rows with
  | nil => intro seen x; simp [dedupeGo]
  | cons r rs ih =>
    intro seen x
    by_cases h : r.id ∈ seen
    · simp only [dedupeGo, if_pos h, ih, List.map_cons, List.mem_cons]
      constructor
      · rintro ⟨hx, hs⟩; exact ⟨Or.inr hx, hs⟩
      · rintro ⟨hx | hx, hs⟩
        · exact absurd (hx ▸ h) hs
        · exact ⟨hx, hs⟩
    · simp only [dedupeGo, if_neg h, List.map_cons, List.mem_cons, ih,
        List.mem_cons, not_or]
      constructor
      · rintro (rfl | ⟨hx, hx1, hx2⟩)
        · exact ⟨Or.inl rfl, h⟩
        · exact ⟨Or.inr hx, hx2⟩
      · rintro ⟨rfl | hx, hs⟩
        · exact Or.inl rfl
        · by_cases hxr : x = r.id
          · exact Or.inl hxr
          · exact Or.inr ⟨hx, hxr, hs⟩

/-- The ids of the output of `dedupeGo` are distinct. -/
theorem nodup_map_id_dedupeGo (rows : List Row) :
    ∀ seen, ((dedupeGo seen rows).map Row.id).Nodup := by
  induction rows with
  | nil => intro seen; simp [dedupeGo]
  | cons r rs ih =>
    intro seen
    by_cases h : r.id ∈ seen
    · simpa [dedupeGo, if_pos h] using ih seen
    · simp only [dedupeGo, if_neg h, List.map_cons, List.nodup_cons]
      refine ⟨fun hmem => ?_, ih (r.id :: seen)⟩
      exact ((mem_map_id_dedupeGo rs (r.id :: seen) r.id).mp hmem).2
        (List.mem_cons_self _ _)

/-- When the input ids carry no duplicate and none is in `seen`, `dedupeGo`
keeps everything. -/
theorem dedupeGo_eq_self (rows : List Row) :
    ∀ seen, (rows.map Row.id).Nodup → (∀ x ∈ rows.map Row.id, x ∉ seen) →
      dedupeGo seen rows = rows := by
  induction rows with
  | nil => intro seen _ _; rfl
  | cons r rs ih =>
    intro seen hnd hdisj
    have hr : r.id ∉ seen := hdisj r.id (by simp)
    simp only [dedupeGo, if_neg hr]
    congr 1
    refine ih (r.id :: seen) ((List.nodup_cons.mp (by simpa using hnd)).2) ?_
    intro x hx
    simp only [List.mem_cons, not_or]
    refine ⟨fun hxr => ?_, hdisj x (by simp [hx])⟩
    exact (List.nodup_cons.mp (by simpa using hnd)).1 (hxr ▸ hx)

/-- With duplicate-free ids, `dedupeById` is the identity. -/
theorem dedupeById_eq_self {rows : List Row}
    (h : (rows.map Row.id).Nodup) : dedupeById rows = rows :=
  dedupeGo_eq_self rows [] h (by simp)

/-- The first occurrence of an id is the row kept by `dedupeGo`. -/
theorem find_mem_dedupeGo (rows : List Row) :
    ∀ seen x r, x ∉ seen → rows.find? (fun t => t.id == x) = some r →
      r ∈ dedupeGo seen rows := by
  induction rows with
  | nil => intro seen x r _ hfind; simp [List.find?] at hfind
  | cons a rs ih =>
    intro seen x r hx hfind
    by_cases hax : a.id = x
    · have : a = r := by
        have hp : (fun t => t.id == x) a = true := by simp [hax]
        simp only [List.find?_cons, hp] at hfind
        exact Option.some.inj hfind
      subst this
      by_cases h : a.id ∈ seen
      · exact absurd (hax ▸ h) hx
      · simp [dedupeGo, if_neg h]
    · have hneg : (fun t => t.id == x) a = false := by
        simp [hax]
      simp only [List.find?_cons, hneg] at hfind
      by_cases h : a.id ∈ seen
      · simp only [dedupeGo, if_pos h]
        exact ih seen x r hx hfind
      · simp only [dedupeGo, if_neg h]
        refine List.mem_cons_of_mem a (ih (a.id :: seen) x r ?_ hfind)
        simp only [List.mem_cons, not_or]
        exact ⟨fun hc => hax hc.symm, hx⟩

/-- Under duplicate-free input ids, `dedupeGo` is exactly a filter on the
`seen` set. -/
theorem dedupeGo_eq_filter (prev : List Row) :
    ∀ seen, (prev.map Row.id).Nodup →
      dedupeGo seen prev = prev.filter (fun r => !(decide (r.id ∈ seen))) := by
  induction prev with
  | nil => intro seen _; rfl
  | cons a rs ih =>
    intro seen hnd
    have ha : a.id ∉ rs.map Row.id := (List.nodup_cons.mp (by simpa using hnd)).1
    have hrs : (rs.map Row.id).Nodup := (List.nodup_cons.mp (by simpa using hnd)).2
    by_cases h : a.id ∈ seen
    · rw [dedupeGo, if_pos h, ih seen hrs, List.filter_cons]
      simp [h]
    · rw [dedupeGo, if_neg h, ih (a.id :: seen) hrs, List.filter_cons]
      simp only [h, decide_False, Bool.not_false, if_true, decide_eq_true_eq]
      congr 1
      apply List.filter_congr
      intro r hr
      have hne : r.id ≠ a.id := by
        intro hc; exact ha (hc ▸ List.mem_map_of_mem Row.id hr)
      simp [List.mem_cons, hne]

/-- Prepending a fresh live row and deduplicating keeps the new row and drops
exactly the old copy bearing the same id. -/
theorem dedupeById_cons {row : Row} {prev : List Row}
    (h : (prev.map Row.id).Nodup) :
    dedupeById (row :: prev) =
      row :: prev.filter (fun r => decide (r.id ≠ row.id)) := by
  have h0 : row.id ∉ ([] : List String) := by simp
  simp only [dedupeById, dedupeGo, if_neg h0]
  rw [dedupeGo_eq_filter prev [row.id] h]
  congr 1
  apply List.filter_congr
  intro r _
  simp [List.mem_singleton, decide_not]

theorem length_filter_ne_of_mem {z : String} : ∀ {prev : List Row},
    (prev.map Row.id).Nodup → z ∈ prev.map Row.id →
      (prev.filter (fun r => decide (r.id ≠ z))).length + 1 = prev.length := by
  intro prev
  induction prev with
  | nil => intro _ hm; simp at hm
  | cons a rs ih =>
    intro hnd hm
    have ha : a.id ∉ rs.map Row.id := (List.nodup_cons.mp (by simpa using hnd)).1
    have hrs : (rs.map Row.id).Nodup := (List.nodup_cons.mp (by simpa using hnd)).2
    by_cases haz : a.id = z
    · have hfil : rs.filter (fun r => decide (r.id ≠ z)) = rs := by
        apply List.filter_eq_self.mpr
        intro r hr
        have : r.id ≠ z := by
          intro hc
          exact ha (haz ▸ hc ▸ List.mem_map_of_mem Row.id hr)
        simp [this]
      rw [List.filter_cons, if_neg (by simp [haz]), hfil]
      simp
    · have hm' : z ∈ rs.map Row.id := by
        rcases (by simpa using hm : z = a.id ∨ z ∈ rs.map Row.id) with hc | hc
        · exact absurd hc.symm haz
        · exact hc
      have := ih hrs hm'
      rw [List.filter_cons, if_pos (by simp [haz])]
      simp only [List.length_cons]
      omega

/-! ## Properties of the live-merge step `onEvent` -/

theorem tsLe_trans : ∀ a b c : Row,
    tsLe a b = true → tsLe b c = true → tsLe a c = true := by
  intro a b c hab hbc
  simp only [tsLe, decide_eq_true_eq] at *
  omega

theorem tsLe_total : ∀ a b : Row, (tsLe a b || tsLe b a) = true := by
  intro a b
  simp only [tsLe, Bool.or_eq_true, decide_eq_true_eq]
  omega

theorem mem_onEvent {r row : Row} {prev : List Row} :
    r ∈ onEvent row prev ↔ r ∈ dedupeById (row :: prev) := by
  simp [onEvent, sortByTimestamp, List.mem_mergeSort]

theorem map_id_onEvent_perm (row : Row) (prev : List Row) :
    ((onEvent row prev).map Row.id).Perm
      ((dedupeById (row :: prev)).map Row.id) :=
  (List.mergeSort_perm _ tsLe).map Row.id

theorem nodup_map_id_onEvent (row : Row) (prev : List Row) :
    ((onEvent row prev).map Row.id).Nodup :=
  (map_id_onEvent_perm row prev).nodup_iff.mpr (nodup_map_id_dedupeGo _ [])

theorem mem_map_id_onEvent {x : String} {row : Row} {prev : List Row} :
    x ∈ (onEvent row prev).map Row.id ↔ x = row.id ∨ x ∈ prev.map Row.id := by
  rw [(map_id_onEvent_perm row prev).mem_iff]
  simp only [dedupeById]
  rw [mem_map_id_dedupeGo (row :: prev) [] x]
  simp

theorem onEvent_length {row : Row} {prev : List Row}
    (h : (prev.map Row.id).Nodup) (hm : row.id ∈ prev.map Row.id) :
    (onEvent row prev).length = prev.length := by
  have := length_filter_ne_of_mem (z := row.id) h hm
  simp only [onEvent, sortByTimestamp, List.length_mergeSort,
    dedupeById_cons h, List.length_cons]
  omega

/-- Invariant of live-event application: when every live id was already in the
feed, the feed's length and id set are preserved (and ids stay distinct). -/
theorem applyLive_invariant : ∀ (live : List Row) (prev : List Row),
    (prev.map Row.id).Nodup → (∀ r ∈ live, r.id ∈ prev.map Row.id) →
      (applyLive live prev).length = prev.length ∧
      ((applyLive live prev).map Row.id).Nodup ∧
      (∀ x, x ∈ (applyLive live prev).map Row.id ↔ x ∈ prev.map Row.id) := by
  intro live
  induction live with
  | nil => intro prev h _; exact ⟨rfl, h, fun _ => Iff.rfl⟩
  | cons row lv ih =>
    intro prev hnd hsub
    have hrow : row.id ∈ prev.map Row.id := hsub row (by simp)
    have hnd' : ((onEvent row prev).map Row.id).Nodup :=
      nodup_map_id_onEvent row prev
    have hmem' : ∀ x, x ∈ (onEvent row prev).map Row.id ↔
        x ∈ prev.map Row.id := by
      intro x
      rw [mem_map_id_onEvent]
      constructor
      · rintro (rfl | hx)
        · exact hrow
        · exact hx
      · exact Or.inr
    have hsub' : ∀ r ∈ lv, r.id ∈ (onEvent row prev).map Row.id := by
      intro r hr
      exact (hmem' r.id).mpr (hsub r (by simp [hr]))
    obtain ⟨hl, hn, hm⟩ := ih (onEvent row prev) hnd' hsub'
    refine ⟨?_, hn, fun x => (hm x).trans (hmem' x)⟩
    have : (applyLive (row :: lv) prev) = applyLive lv (onEvent row prev) := rfl
    rw [this, hl, onEvent_length hnd hrow]

/-! ## Claim theorems about the reconciliation view -/

/-- C10: for every input list of records, `dedupeById` returns a list in which
each id occurs exactly once (the ids of the output are distinct and are
exactly the input ids), keeping the first occurrence of each id in input order
and preserving the relative order of the kept records (output is a sublist of
the input); consequently, because the live handler `onEvent` prepends the
newly arrived row before deduplicating, a re-delivered event's newest copy is
the one retained. -/
theorem dedupeById_first_occurrence_spec :
    ∀ rows : List Row,
      ((dedupeById rows).map Row.id).Nodup ∧
      (dedupeById rows).Sublist rows ∧
      (∀ x, x ∈ (dedupeById rows).map Row.id ↔ x ∈ rows.map Row.id) ∧
      (∀ x r, rows.find? (fun t => t.id == x) = some r →
        r ∈ dedupeById rows) ∧
      (∀ (row : Row) (prev : List Row), row ∈ onEvent row prev ∧
        ∀ r ∈ onEvent row prev, r.id = row.id → r = row) := by
  intro rows
  refine ⟨nodup_map_id_dedupeGo rows [], dedupeGo_sublist rows [],
    fun x => ?_, fun x r hfind => ?_, fun row prev => ⟨?_, ?_⟩⟩
  · simp only [dedupeById]
    rw [mem_map_id_dedupeGo rows [] x]
    simp
  · exact find_mem_dedupeGo rows [] x r (by simp) hfind
  · apply mem_onEvent.mpr
    apply find_mem_dedupeGo (row :: prev) [] row.id row (by simp)
    simp [List.find?_cons]
  · intro r hr hid
    have hr' : r ∈ dedupeById (row :: prev) := mem_onEvent.mp hr
    have hrow' : row ∈ dedupeById (row :: prev) := by
      apply find_mem_dedupeGo (row :: prev) [] row.id row (by simp)
      simp [List.find?_cons]
    exact List.inj_on_of_nodup_map (nodup_map_id_dedupeGo (row :: prev) [])
      hr' hrow' hid

/-- C3: the reconciled feed produced by `sortByTimestamp` is sorted by
timestamp descending, is a permutation of its input, and the records with
timestamp 0 keep their original feed order (the sort is stable on ties). -/
theorem sortByTimestamp_desc_stable :
    ∀ rows : List Row,
      List.Pairwise (fun a b => b.timestamp ≤ a.timestamp)
        (sortByTimestamp rows) ∧
      (sortByTimestamp rows).Perm rows ∧
      (sortByTimestamp rows).filter (fun r => decide (r.timestamp = 0)) =
        rows.filter (fun r => decide (r.timestamp = 0)) := by
  intro rows
  refine ⟨?_, List.mergeSort_perm rows tsLe, ?_⟩
  · have h := List.sorted_mergeSort tsLe_trans tsLe_total rows
    exact h.imp (fun hab => by simpa [tsLe] using hab)
  · have hall : ∀ x ∈ rows.filter (fun r => decide (r.timestamp = 0)),
        x.timestamp = 0 := by
      intro x hx
      simpa using List.of_mem_filter hx
    have hpw : List.Pairwise (fun a b => tsLe a b = true)
        (rows.filter (fun r => decide (r.timestamp = 0))) := by
      apply List.pairwise_of_forall_mem_list
      intro a ha b hb
      simp [tsLe, hall a ha, hall b hb]
    have hsubl : (rows.filter (fun r => decide (r.timestamp = 0))).Sublist
        (sortByTimestamp rows) :=
      List.sublist_mergeSort tsLe_trans tsLe_total hpw (List.filter_sublist rows)
    have hfself : (rows.filter (fun r => decide (r.timestamp = 0))).filter
        (fun r => decide (r.timestamp = 0)) =
        rows.filter (fun r => decide (r.timestamp = 0)) := by
      apply List.filter_eq_self.mpr
      intro a ha
      simp [hall a ha]
    have hsub2 : (rows.filter (fun r => decide (r.timestamp = 0))).Sublist
        ((sortByTimestamp rows).filter (fun r => decide (r.timestamp = 0))) := by
      have := hsubl.filter (fun r => decide (r.timestamp = 0))
      rwa [hfself] at this
    have hperm : ((sortByTimestamp rows).filter
        (fun r => decide (r.timestamp = 0))).Perm
        (rows.filter (fun r => decide (r.timestamp = 0))) :=
      (List.mergeSort_perm rows tsLe).filter _
    exact (hsub2.eq_of_length hperm.length_eq.symm).symm

/-- C2: a sequence of N append events with distinct ids delivered once via the
historical backfill and delivered again (overlapping arbitrarily) via the live
subscription reconciles to a feed of exactly N records with distinct ids, and
the merge step `dedupeById` is idempotent under re-delivery. -/
theorem backfill_live_redelivery_count :
    ∀ history live : List Row,
      (history.map Row.id).Nodup →
      (∀ r ∈ live, r.id ∈ history.map Row.id) →
      (applyLive live (initialItems history)).length = history.length ∧
      ((applyLive live (initialItems history)).map Row.id).Nodup ∧
      ∀ xs : List Row, dedupeById (dedupeById xs) = dedupeById xs := by
  intro history live hnd hsub
  have hperm : ((initialItems history).map Row.id).Perm
      ((dedupeById history).map Row.id) :=
    (List.mergeSort_perm _ tsLe).map Row.id
  have hinit_nd : ((initialItems history).map Row.id).Nodup :=
    hperm.nodup_iff.mpr (nodup_map_id_dedupeGo history [])
  have hinit_mem : ∀ x, x ∈ (initialItems history).map Row.id ↔
      x ∈ history.map Row.id := by
    intro x
    rw [hperm.mem_iff]
    simp only [dedupeById]
    rw [mem_map_id_dedupeGo history [] x]
    simp
  have hinit_len : (initialItems history).length = history.length := by
    rw [initialItems, dedupeById_eq_self hnd, sortByTimestamp,
      List.length_mergeSort]
  obtain ⟨hl, hn, _⟩ := applyLive_invariant live (initialItems history)
    hinit_nd (fun r hr => (hinit_mem r.id).mpr (hsub r hr))
  exact ⟨hl.trans hinit_len, hn,
    fun xs => dedupeById_eq_self (nodup_map_id_dedupeGo xs [])⟩

/-- Two concrete append-event records used to witness C2 on a small input. -/
def histRows : List Row :=
  [⟨"1-0", "0xaaa1", "0xh1", "m1", 5⟩, ⟨"2-0", "0xaaa2", "0xh2", "m2", 7⟩]

/-- The same two events re-delivered, newest first, via the live subscription. -/
def liveRows : List Row :=
  [⟨"2-0", "0xaaa2", "0xh2", "m2", 7⟩, ⟨"1-0", "0xaaa1", "0xh1", "m1", 5⟩]

theorem backfill_live_redelivery_count_witness :
    (histRows.map Row.id).Nodup ∧
    (∀ r ∈ liveRows, r.id ∈ histRows.map Row.id) ∧
    (applyLive liveRows (initialItems histRows)).length = histRows.length :=
  ⟨by decide, by decide,
    (backfill_live_redelivery_count histRows liveRows (by decide)
      (by decide)).1⟩

/-- A concrete feed used to witness C10's first-occurrence clause. -/
def dupRows : List Row :=
  [⟨"3-0", "0xaaa1", "0xh3", "m3", 9⟩, ⟨"3-0", "0xaaa2", "0xh4", "m4", 2⟩]

theorem dedupeById_first_occurrence_spec_witness :
    dupRows.find? (fun t => t.id == "3-0") =
      some ⟨"3-0", "0xaaa1", "0xh3", "m3", 9⟩ ∧
    (⟨"3-0", "0xaaa1", "0xh3", "m3", 9⟩ : Row) ∈ dedupeById dupRows :=
  ⟨by decide,
    (dedupeById_first_occurrence_spec dupRows).2.2.2.1 "3-0" _ (by decide)⟩

/-! ## Historical backfill queries (EvidenceList.js lines 38–44)

The backfill obtains `latest = await provider.getBlockNumber()` and then runs
`contract.queryFilter("EvidenceSubmitted", fromBlock, latest)`: a single
inclusive-range log query.  We model the emitted events of the chain as a
list of (blockNumber, payload-id) pairs and `queryFilter` by its ethers
semantics: return every emitted event whose block lies in the inclusive
range. -/

/-- An emitted append event as seen by the log transport: its block number and
an opaque payload (we only need the block number here). -/
structure ChainEvent where
  blockNumber : Nat
  payload : String
  deriving DecidableEq

/-- The inclusive-range block queries issued by the backfill of
EvidenceList.js: the code performs exactly one `queryFilter` over
`[fromBlock, latest]`, whatever the size of the range. -/
def backfillQueries (fromBlock latest : Nat) : List (Nat × Nat) :=
  [(fromBlock, latest)]

/-- Semantics of one `queryFilter(event, lo, hi)` call: all emitted events
with `lo ≤ blockNumber ≤ hi` (inclusive bounds), in emission order. -/
def fetchRange (events : List ChainEvent) (lo hi : Nat) : List ChainEvent :=
  events.filter (fun e => decide (lo ≤ e.blockNumber ∧ e.blockNumber ≤ hi))

/-- The events the backfill delivers: the concatenation of its queries'
results. -/
def backfill (events : List ChainEvent) (fromBlock latest : Nat) :
    List ChainEvent :=
  (backfillQueries fromBlock latest).flatMap (fun q => fetchRange events q.1 q.2)

/-- C4 counterexample: the backfill does not fetch in fixed-size chunks — no
bound on the per-query block span holds, because the code issues one query
spanning the whole `[fromBlock, latest]` range regardless of its size. -/
theorem backfill_no_fixed_chunk :
    ¬ ∃ c : Nat, ∀ lo hi : Nat, lo ≤ hi →
      ∀ q ∈ backfillQueries lo hi, q.2 + 1 - q.1 ≤ c := by
  rintro ⟨c, hc⟩
  have h := hc 0 (c + 1) (by omega) (0, c + 1) (by simp [backfillQueries])
  omega

/-- C4 amended: the backfill issues a single inclusive-range query covering
`[fromBlock, latest]`, so every emitted event in the range is delivered with
its original multiplicity (no gaps) and exactly once per emission (no
overlaps), and nothing outside the range is delivered. -/
theorem backfill_single_query_covers :
    ∀ (events : List ChainEvent) (fromBlock latest : Nat) (e : ChainEvent),
      backfillQueries fromBlock latest = [(fromBlock, latest)] ∧
      (backfill events fromBlock latest).count e =
        (if fromBlock ≤ e.blockNumber ∧ e.blockNumber ≤ latest then
          events.count e else 0) := by
  intro events fromBlock latest e
  refine ⟨rfl, ?_⟩
  simp only [backfill, backfillQueries, List.flatMap_cons, List.flatMap_nil,
    List.append_nil, fetchRange]
  by_cases h : fromBlock ≤ e.blockNumber ∧ e.blockNumber ≤ latest
  · rw [if_pos h, List.count_filter (by simpa using h)]
  · rw [if_neg h]
    apply List.count_eq_zero.mpr
    intro hmem
    exact h (by simpa using List.of_mem_filter hmem)

/-! ## Content store: `POST /upload` (fe/server/server.js lines 64–96)

The handler hashes the uploaded buffer, derives
`storedName = keccak.slice(2) + extname(originalname).toLowerCase()`, and
writes with `fs.writeFileSync(absPath, buf, { flag: "wx" })`.  Node fails such
a write for an existing path with an error whose `code` is `"EEXIST"`; the
handler then checks `if (e.code !== "EXIST")` — the string `"EXIST"`, not
`"EEXIST"` — and so returns 500 for a duplicate instead of reaching the
intended already-exists success path. -/

/-- The upload directory: file name ↦ stored bytes. -/
def Store := List (String × List Nat)

/-- Model of Node `fs.writeFileSync(path, buf, { flag: "wx" })`: exclusive
create; an existing name raises an error with code `"EEXIST"`. -/
def writeFileWx (store : Store) (name : String) (buf : List Nat) :
    Except String Store :=
  match (List.lookup name store : Option (List Nat)) with
  | some _ => .error "EEXIST"
  | none => .ok ((name, buf) :: store)

/-- Model of `path.extname`: the suffix from the last dot, empty when there is
no dot or the only dot leads the name. -/
def extname (s : List Char) : List Char :=
  let r := s.reverse.takeWhile (fun c => c ≠ '.')
  if r.length + 1 < s.length ∨
      (r.length + 1 = s.length ∧ s.head? ≠ some '.') then
    '.' :: r.reverse
  else []

/-- The handler's response: `res.json` payload plus HTTP status. -/
inductive UploadResult where
  | success (keccak sha filename url : String)
  | failure (status : Nat) (error : String)
  deriving DecidableEq

/-- Embeds the `POST /upload` handler, parameterised by the two digest
functions (`keccak256Hex`, `sha256Hex` delegate to library code).  Mirrors the
source: 400 when no file, write-once via `wx`, and the literal
`e.code !== "EXIST"` comparison guarding the 500 response. -/
def handleUpload (keccakHex sha256Hex : List Nat → String) (store : Store)
    (file? : Option (List Nat × String)) : UploadResult × Store :=
  match file? with
  | none => (.failure 400 "No file", store)
  | some (buf, originalname) =>
    let k := keccakHex buf
    let s := sha256Hex buf
    let storedName :=
      String.mk ((k.drop 2).data ++ (extname originalname.data).map Char.toLower)
    match writeFileWx store storedName buf with
    | .ok store2 =>
      (.success k s storedName ("/files/" ++ storedName), store2)
    | .error code =>
      if code ≠ "EXIST" then (.failure 500 "Upload failed", store)
      else (.success k s storedName ("/files/" ++ storedName), store)

/-- C1 (code bug): uploading the same bytes twice does not yield a no-op
success.  The first upload of the bytes of "hello" succeeds and stores them;
re-uploading the identical bytes yields HTTP 500 "Upload failed" — because
the duplicate write raises `EEXIST` while the handler only tolerates the
misspelled code `"EXIST"` — though the stored bytes are indeed unchanged. -/
theorem upload_duplicate_returns_500 :
    (handleUpload (fun _ => "0xabc123") (fun _ => "0xdef456") []
        (some ([104, 101, 108, 108, 111], "hello.txt"))).1 =
      .success "0xabc123" "0xdef456" "abc123.txt" "/files/abc123.txt" ∧
    (handleUpload (fun _ => "0xabc123") (fun _ => "0xdef456")
        (handleUpload (fun _ => "0xabc123") (fun _ => "0xdef456") []
          (some ([104, 101, 108, 108, 111], "hello.txt"))).2
        (some ([104, 101, 108, 108, 111], "hello.txt"))).1 =
      .failure 500 "Upload failed" ∧
    (handleUpload (fun _ => "0xabc123") (fun _ => "0xdef456")
        (handleUpload (fun _ => "0xabc123") (fun _ => "0xdef456") []
          (some ([104, 101, 108, 108, 111], "hello.txt"))).2
        (some ([104, 101, 108, 108, 111], "hello.txt"))).2 =
      [("abc123.txt", [104, 101, 108, 108, 111])] := by
  refine ⟨?_, ?_, ?_⟩ <;> rfl

/-! ## Read-only gate on `/files` (fe/server/server.js lines 32–35) -/

/-- Result of the `app.all("/files/*")` gate: pass the request on to the
static file handler, or answer 405 with an `Allow: GET, HEAD` header. -/
inductive GateResult where
  | nextHandler
  | methodNotAllowed
  deriving DecidableEq

/-- Embeds the read-only gate: `if (req.method === "GET" || req.method ===
"HEAD") return next(); res.set("Allow", "GET, HEAD").status(405)...`. -/
def filesGate (method : String) : GateResult :=
  if method = "GET" ∨ method = "HEAD" then .nextHandler else .methodNotAllowed

/-- The `/files` route as a store transformer: the gate never touches the
stored content, and the downstream static handler is read-only (it serves
from the store without modifying it).  Returns the HTTP status class. -/
def filesRoute (method : String) (store : Store) : Nat × Store :=
  match filesGate method with
  | .nextHandler => (200, store)
  | .methodNotAllowed => (405, store)

/-- C9 counterexample: a HEAD request to `/files` — a method other than GET —
is passed through to the static handler (status 200), not rejected with 405. -/
theorem files_head_not_rejected :
    filesGate "HEAD" = GateResult.nextHandler ∧
    (filesRoute "HEAD" []).1 = 200 ∧ ¬ (filesRoute "HEAD" []).1 = 405 := by
  refine ⟨rfl, rfl, by decide⟩

/-- C9 amended: every request to the `/files` path whose method is neither
GET nor HEAD receives 405 Method Not Allowed, and the stored content is left
untouched (as it also is for GET and HEAD, which the gate passes through to a
read-only static handler). -/
theorem files_non_get_head_rejected :
    ∀ (method : String) (store : Store),
      method ≠ "GET" → method ≠ "HEAD" →
      filesRoute method store = (405, store) ∧
      (filesRoute method store).2 = store := by
  intro method store h1 h2
  have : filesGate method = .methodNotAllowed := by
    simp [filesGate, h1, h2]
  simp [filesRoute, this]

theorem files_non_get_head_rejected_witness :
    ("POST" : String) ≠ "GET" ∧ ("POST" : String) ≠ "HEAD" ∧
    filesRoute "POST" [] = (405, []) :=
  ⟨by decide, by decide,
    (files_non_get_head_rejected "POST" [] (by decide) (by decide)).1⟩

/-! ## Evidence ledger (contracts/contracts/EvidenceRegistry.sol)

The V2 contract: `Evidence { bytes32 fileHash; bytes32 metaHash; uint256
timestamp; string fileUrl }`, `mapping(address => Evidence[]) logs`, an
`EvidenceSubmitted` event on every append, and a proof-gated variant guarded
by `require(verify(input, proof) == 0, "Invalid ZK proof")`.  `bytes32` and
`uint256` values are modelled as `Nat`, addresses as `String`; the
ZoKrates-generated `verify` lives outside this repository and is taken as a
parameter returning its `uint` outcome (0 = valid). -/

/-- A `G1Point` of the ZoKrates verifier interface. -/
structure G1Point where
  X : Nat
  Y : Nat
  deriving DecidableEq

/-- A `G2Point` of the ZoKrates verifier interface. -/
structure G2Point where
  X : Nat × Nat
  Y : Nat × Nat
  deriving DecidableEq

/-- The `Proof` struct (`a`, `b`, `c`) passed to `submitEvidenceWithProof`. -/
structure ZkProof where
  a : G1Point
  b : G2Point
  c : G1Point
  deriving DecidableEq

/-- One stored `Evidence` record of the V2 contract. -/
structure Evidence where
  fileHash : Nat
  metaHash : Nat
  timestamp : Nat
  fileUrl : String
  deriving DecidableEq

/-- One emitted `EvidenceSubmitted` event. -/
structure EvEvent where
  submitter : String
  fileHash : Nat
  metaHash : Nat
  fileUrl : String
  timestamp : Nat
  deriving DecidableEq

/-- The contract's storage: `mapping(address => Evidence[]) logs`, every
address starting from the empty array. -/
def RState := String → List Evidence

/-- The freshly deployed contract: all logs empty. -/
def emptyState : RState := fun _ => []

/-- Embeds `submitEvidence(fileHash, metaHash, fileUrl)`: pushes one record
onto the sender's log and emits one `EvidenceSubmitted` event carrying the
same fields and `block.timestamp`. -/
def submitEvidence (s : RState) (sender : String) (fileHash metaHash : Nat)
    (fileUrl : String) (blockTimestamp : Nat) : RState × EvEvent :=
  (fun a => if a = sender then
      s a ++ [⟨fileHash, metaHash, blockTimestamp, fileUrl⟩]
    else s a,
   ⟨sender, fileHash, metaHash, fileUrl, blockTimestamp⟩)

/-- Embeds `submitEvidenceWithProof`: `require(verify(input, proof) == 0,
"Invalid ZK proof")` then the same push-and-emit as `submitEvidence`.  A
failed `require` reverts the transaction, modelled as `Except.error`. -/
def submitEvidenceWithProof (verify : List Nat → ZkProof → Nat) (s : RState)
    (sender : String) (fileHash metaHash : Nat) (fileUrl : String)
    (blockTimestamp : Nat) (proof : ZkProof) (input : List Nat) :
    Except String (RState × EvEvent) :=
  if verify input proof = 0 then
    .ok (submitEvidence s sender fileHash metaHash fileUrl blockTimestamp)
  else
    .error "Invalid ZK proof"

/-- The chain-level outcome of a gated append: a revert leaves storage as it
was and emits nothing; success installs the new storage and emits the one
event. -/
def runGated (verify : List Nat → ZkProof → Nat) (s : RState) (sender : String)
    (fileHash metaHash : Nat) (fileUrl : String) (blockTimestamp : Nat)
    (proof : ZkProof) (input : List Nat) : RState × List EvEvent :=
  match submitEvidenceWithProof verify s sender fileHash metaHash fileUrl
      blockTimestamp proof input with
  | .ok (s2, ev) => (s2, [ev])
  | .error _ => (s, [])

/-- Embeds `getEvidenceCount(user)`: `logs[user].length`. -/
def getEvidenceCount (s : RState) (user : String) : Nat := (s user).length

/-- Embeds `getEvidence(user, index)`: the record's four fields; an
out-of-range index reverts, modelled as `none`. -/
def getEvidence (s : RState) (user : String) (index : Nat) :
    Option (Nat × Nat × String × Nat) :=
  ((s user).get? index).map fun e => (e.fileHash, e.metaHash, e.fileUrl, e.timestamp)

/-- C5: a gated append whose delegated proof check fails is rejected with the
ledger unchanged and no event emitted; one that passes appends exactly one
record and emits exactly one event, identical to the ungated
`submitEvidence`. -/
theorem gated_append_atomic :
    ∀ (verify : List Nat → ZkProof → Nat) (s : RState) (sender : String)
      (fileHash metaHash : Nat) (fileUrl : String) (blockTimestamp : Nat)
      (proof : ZkProof) (input : List Nat),
      (verify input proof ≠ 0 →
        runGated verify s sender fileHash metaHash fileUrl blockTimestamp
          proof input = (s, [])) ∧
      (verify input proof = 0 →
        runGated verify s sender fileHash metaHash fileUrl blockTimestamp
            proof input =
          (let r := submitEvidence s sender fileHash metaHash fileUrl
            blockTimestamp
           (r.1, [r.2])) ∧
        ((runGated verify s sender fileHash metaHash fileUrl blockTimestamp
            proof input).1 sender =
          s sender ++ [⟨fileHash, metaHash, blockTimestamp, fileUrl⟩]) ∧
        (runGated verify s sender fileHash metaHash fileUrl blockTimestamp
            proof input).2 =
          [⟨sender, fileHash, metaHash, fileUrl, blockTimestamp⟩]) := by
  intro verify s sender fileHash metaHash fileUrl blockTimestamp proof input
  constructor
  · intro h
    simp [runGated, submitEvidenceWithProof, h]
  · intro h
    refine ⟨?_, ?_, ?_⟩ <;>
      simp [runGated, submitEvidenceWithProof, h, submitEvidence]

theorem gated_append_atomic_witness :
    ((fun (_ : List Nat) (_ : ZkProof) => 1) [7] ⟨⟨1, 2⟩, ⟨(3, 4), (5, 6)⟩, ⟨7, 8⟩⟩ ≠ 0) ∧
    runGated (fun _ _ => 1) emptyState "0xsender" 11 22 "/files/a" 99
        ⟨⟨1, 2⟩, ⟨(3, 4), (5, 6)⟩, ⟨7, 8⟩⟩ [7] = (emptyState, []) ∧
    runGated (fun _ _ => 0) emptyState "0xsender" 11 22 "/files/a" 99
        ⟨⟨1, 2⟩, ⟨(3, 4), (5, 6)⟩, ⟨7, 8⟩⟩ [7] =
      (let r := submitEvidence emptyState "0xsender" 11 22 "/files/a" 99
       (r.1, [r.2])) :=
  ⟨by decide,
    (gated_append_atomic (fun _ _ => 1) emptyState "0xsender" 11 22 "/files/a"
      99 ⟨⟨1, 2⟩, ⟨(3, 4), (5, 6)⟩, ⟨7, 8⟩⟩ [7]).1 (by decide),
    ((gated_append_atomic (fun _ _ => 0) emptyState "0xsender" 11 22 "/files/a"
      99 ⟨⟨1, 2⟩, ⟨(3, 4), (5, 6)⟩, ⟨7, 8⟩⟩ [7]).2 rfl).1⟩

/-! ## Sequences of ledger operations (write surface of the contract) -/

/-- A write operation of the registry: the ungated `submitEvidence` or the
proof-gated `submitEvidenceWithProof` (these are the contract's only
state-changing functions — it has no update or delete). -/
inductive Op where
  | plain (sender : String) (fileHash metaHash : Nat) (fileUrl : String)
      (blockTimestamp : Nat)
  | gated (sender : String) (fileHash metaHash : Nat) (fileUrl : String)
      (blockTimestamp : Nat) (proof : ZkProof) (input : List Nat)

/-- The storage left by one operation (a reverted gated append leaves storage
unchanged). -/
def applyOp (verify : List Nat → ZkProof → Nat) (s : RState) : Op → RState
  | .plain sender fh mh url ts => (submitEvidence s sender fh mh url ts).1
  | .gated sender fh mh url ts proof input =>
    (runGated verify s sender fh mh url ts proof input).1

/-- The storage left by a sequence of operations, applied in order. -/
def applyOps (verify : List Nat → ZkProof → Nat) (s : RState)
    (ops : List Op) : RState :=
  ops.foldl (applyOp verify) s

/-- The records one operation appends to `user`'s log: one for an ungated
append by `user`, one for a gated append by `user` whose proof check passes,
none otherwise. -/
def opAppends (verify : List Nat → ZkProof → Nat) (user : String) :
    Op → List Evidence
  | .plain sender fh mh url ts =>
    if sender = user then [⟨fh, mh, ts, url⟩] else []
  | .gated sender fh mh url ts proof input =>
    if verify input proof = 0 ∧ sender = user then [⟨fh, mh, ts, url⟩] else []

/-- All records a sequence of operations appends to `user`'s log, in order. -/
def appendedBy (verify : List Nat → ZkProof → Nat) (user : String)
    (ops : List Op) : List Evidence :=
  ops.flatMap (opAppends verify user)

theorem applyOp_user (verify : List Nat → ZkProof → Nat) (s : RState)
    (op : Op) (user : String) :
    applyOp verify s op user = s user ++ opAppends verify user op := by
  cases op with
  | plain sender fh mh url ts =>
    by_cases h : user = sender
    · simp [applyOp, submitEvidence, opAppends, h]
    · have h2 : ¬ sender = user := fun hc => h hc.symm
      simp [applyOp, submitEvidence, opAppends, h, h2]
  | gated sender fh mh url ts proof input =>
    by_cases hv : verify input proof = 0
    · by_cases h : user = sender
      · simp [applyOp, runGated, submitEvidenceWithProof, submitEvidence,
          opAppends, hv, h]
      · have h2 : ¬ sender = user := fun hc => h hc.symm
        simp [applyOp, runGated, submitEvidenceWithProof, submitEvidence,
          opAppends, hv, h, h2]
    · simp [applyOp, runGated, submitEvidenceWithProof, opAppends, hv]

theorem applyOps_user (verify : List Nat → ZkProof → Nat) :
    ∀ (ops : List Op) (s : RState) (user : String),
      applyOps verify s ops user = s user ++ appendedBy verify user ops := by
  intro ops
  induction ops with
  | nil => intro s user; simp [applyOps, appendedBy]
  | cons op rest ih =>
    intro s user
    have h1 : applyOps verify s (op :: rest) =
        applyOps verify (applyOp verify s op) rest := rfl
    rw [h1, ih (applyOp verify s op) user, applyOp_user]
    simp [appendedBy]

/-- C6: for every submitter and every sequence of appends starting from
deployment, `getEvidenceCount` equals the number of (successful) appends made
by that submitter, `getEvidence(submitter, i)` returns exactly the fields of
the i-th appended record, and no operation updates or deletes an existing
record: from any storage, a sequence of operations leaves every existing
record in place (the old log is an unchanged initial segment) and never
shrinks a log. -/
theorem ledger_append_only_reads :
    ∀ (verify : List Nat → ZkProof → Nat) (ops : List Op) (user : String)
      (s : RState) (i : Nat),
      getEvidenceCount (applyOps verify emptyState ops) user =
        (appendedBy verify user ops).length ∧
      getEvidence (applyOps verify emptyState ops) user i =
        ((appendedBy verify user ops).get? i).map
          (fun e => (e.fileHash, e.metaHash, e.fileUrl, e.timestamp)) ∧
      (applyOps verify s ops user).take (s user).length = s user ∧
      (s user).length ≤ (applyOps verify s ops user).length := by
  intro verify ops user s i
  have hempty : applyOps verify emptyState ops user =
      appendedBy verify user ops := by
    rw [applyOps_user]
    simp [emptyState]
  have hs := applyOps_user verify ops s user
  refine ⟨?_, ?_, ?_, ?_⟩
  · rw [getEvidenceCount, hempty]
  · rw [getEvidence, hempty]
  · rw [hs, List.take_left]
  · rw [hs, List.length_append]
    omega

/-! ## Verification view (fe/src/components/EvidenceVerify.js)

`onVerifyHash` trims the typed input, silently returns when it is empty,
validates `0x`-prefixed input against `/^0x[0-9a-fA-F]{64}$/` and other input
against `/^\d+$/`, and only then calls `runVerify`; `runVerify` filters the
fetched feed by `norm(r.hash) === norm(queryHash)` with
`norm = s => s.trim().toLowerCase()`.  `onVerifyFile` computes
`ethers.keccak256` of the file bytes (delegated library code, taken as a
parameter) and calls the same `runVerify`. -/

/-- The whitespace characters stripped by JavaScript `String.prototype.trim`
that can occur in our inputs (ASCII whitespace). -/
def jsWhitespace (c : Char) : Bool :=
  c = ' ' || c = '\t' || c = '\n' || c = '\r' || c = '\x0b' || c = '\x0c'

/-- Model of JS `s.trim()`. -/
def jsTrim (s : String) : String :=
  ⟨((s.data.dropWhile jsWhitespace).reverse.dropWhile jsWhitespace).reverse⟩

/-- Model of JS `s.toLowerCase()` on the ASCII inputs in play. -/
def jsToLower (s : String) : String := ⟨s.data.map Char.toLower⟩

/-- One character of `[0-9a-fA-F]`. -/
def isHexDigitChar (c : Char) : Bool :=
  c.isDigit || (decide ('a' ≤ c) && decide (c ≤ 'f')) ||
    (decide ('A' ≤ c) && decide (c ≤ 'F'))

/-- Embeds `isKeccak256Hex` (EvidenceVerify.js lines 51–53): the regex test
`/^0x[0-9a-fA-F]{64}$/.test(s)`. -/
def isKeccak256Hex (s : String) : Bool :=
  decide (s.data.take 2 = ['0', 'x']) && decide (s.data.length = 66) &&
    (s.data.drop 2).all isHexDigitChar

/-- The regex test `/^\d+$/.test(s)` used for the decimal-commitment mode. -/
def isDecimalDigits (s : String) : Bool :=
  decide (s.data ≠ []) && s.data.all Char.isDigit

/-- What `onVerifyHash` does with a typed input, up to the point of querying:
silently return, set a validation error, or issue `runVerify(queryHash)`. -/
inductive HashVerifyOutcome where
  | ignored
  | invalidHash
  | invalidCommitment
  | queryIssued (queryHash : String)
  deriving DecidableEq

/-- Embeds `onVerifyHash` (EvidenceVerify.js lines 110–131): trim, bail out on
empty, strict keccak check for `0x…` input (lowercased before querying),
decimal check otherwise. -/
def onVerifyHash (typedHash : String) : HashVerifyOutcome :=
  let h := jsTrim typedHash
  if h = "" then .ignored
  else if h.data.take 2 = ['0', 'x'] then
    if isKeccak256Hex h then .queryIssued (jsToLower h) else .invalidHash
  else if isDecimalDigits h then .queryIssued h
  else .invalidCommitment

/-- The normalisation `norm` inside `runVerify`: `s.trim().toLowerCase()`. -/
def normHash (s : String) : String := jsToLower (jsTrim s)

/-- The match set computed by `runVerify(queryHash)` over the fetched feed:
`rows.filter(r => norm(r.hash) === target)`. -/
def runVerifyMatches (rows : List Row) (queryHash : String) : List Row :=
  rows.filter (fun r => normHash r.hash == normHash queryHash)

/-- The match set of `onVerifyFile`: hash the file with `ethers.keccak256`
(the parameter `keccakHex`) and run the same `runVerify`. -/
def onVerifyFileMatches (keccakHex : List Nat → String) (rows : List Row)
    (content : List Nat) : List Row :=
  runVerifyMatches rows (keccakHex content)

/-- C8 counterexample: the empty typed input is neither a valid digest nor a
decimal numeric string, yet `onVerifyHash` silently ignores it (`if (!h)
return;`) instead of rejecting it with a validation error; no query is issued
either way. -/
theorem onVerifyHash_empty_ignored :
    onVerifyHash "" = HashVerifyOutcome.ignored ∧
    HashVerifyOutcome.ignored ≠ HashVerifyOutcome.invalidHash ∧
    HashVerifyOutcome.ignored ≠ HashVerifyOutcome.invalidCommitment := by
  refine ⟨rfl, by decide, by decide⟩

/-- C8 amended: every typed input that trims to a nonempty string and is
neither a valid `0x`-prefixed 64-hex-character digest nor a decimal numeric
string is rejected with a validation error and no query is issued; an input
that trims to the empty string is silently ignored, also without a query. -/
theorem invalid_typed_input_rejected :
    ∀ s : String, jsTrim s ≠ "" →
      isKeccak256Hex (jsTrim s) = false → isDecimalDigits (jsTrim s) = false →
      (onVerifyHash s = HashVerifyOutcome.invalidHash ∨
        onVerifyHash s = HashVerifyOutcome.invalidCommitment) ∧
      (∀ q, onVerifyHash s ≠ HashVerifyOutcome.queryIssued q) ∧
      onVerifyHash "" = HashVerifyOutcome.ignored := by
  intro s hne hk hd
  have hmain : onVerifyHash s = HashVerifyOutcome.invalidHash ∨
      onVerifyHash s = HashVerifyOutcome.invalidCommitment := by
    unfold onVerifyHash
    rw [if_neg hne]
    by_cases h0x : (jsTrim s).data.take 2 = ['0', 'x']
    · rw [if_pos h0x, if_neg (by simp [hk])]
      exact Or.inl rfl
    · rw [if_neg h0x, if_neg (by simp [hd])]
      exact Or.inr rfl
  refine ⟨hmain, ?_, rfl⟩
  intro q hq
  rcases hmain with h | h <;> rw [hq] at h <;> exact HashVerifyOutcome.noConfusion h

theorem invalid_typed_input_rejected_witness :
    jsTrim "not-hex-not-decimal" ≠ "" ∧
    isKeccak256Hex (jsTrim "not-hex-not-decimal") = false ∧
    isDecimalDigits (jsTrim "not-hex-not-decimal") = false ∧
    (onVerifyHash "not-hex-not-decimal" = HashVerifyOutcome.invalidHash ∨
      onVerifyHash "not-hex-not-decimal" = HashVerifyOutcome.invalidCommitment) :=
  ⟨by decide, by decide, by decide,
    (invalid_typed_input_rejected "not-hex-not-decimal" (by decide) (by decide)
      (by decide)).1⟩

/-- C7: when the typed input is the digest of the same underlying content —
well-formed, equal to the file's keccak hex up to letter case and surrounding
whitespace (`ethers.keccak256` output being lowercase `0x` hex) — verify-by-
typed-hash issues exactly the query verify-by-file issues, so both return the
same match set; and that match set consists of exactly the feed records whose
hash field matches the digest after trim-and-lowercase normalisation
(exact, case-insensitive matching). -/
theorem verify_file_vs_typed_hash :
    ∀ (keccakHex : List Nat → String) (rows : List Row) (content : List Nat)
      (typed : String),
      isKeccak256Hex (keccakHex content) = true →
      jsToLower (keccakHex content) = keccakHex content →
      isKeccak256Hex (jsTrim typed) = true →
      jsToLower (jsTrim typed) = keccakHex content →
      onVerifyHash typed = HashVerifyOutcome.queryIssued (keccakHex content) ∧
      runVerifyMatches rows (keccakHex content) =
        onVerifyFileMatches keccakHex rows content ∧
      (∀ r, r ∈ onVerifyFileMatches keccakHex rows content ↔
        r ∈ rows ∧ normHash r.hash = normHash (keccakHex content)) := by
  intro keccakHex rows content typed hdig hlow htyped heq
  have hne : jsTrim typed ≠ "" := by
    intro hc
    rw [hc] at htyped
    simp [isKeccak256Hex] at htyped
  have h0x : (jsTrim typed).data.take 2 = ['0', 'x'] := by
    have := htyped
    simp only [isKeccak256Hex, Bool.and_eq_true, decide_eq_true_eq] at this
    exact this.1.1
  refine ⟨?_, rfl, ?_⟩
  · unfold onVerifyHash
    rw [if_neg hne, if_pos h0x, if_pos htyped, heq]
  · intro r
    simp only [onVerifyFileMatches, runVerifyMatches, List.mem_filter,
      beq_iff_eq]

theorem verify_file_vs_typed_hash_witness :
    isKeccak256Hex
        ((fun (_ : List Nat) =>
          "0xaaaaaaaaaaaaaaaaaaaaaaaaaaaaaaaaaaaaaaaaaaaaaaaaaaaaaaaaaaaaaaaa")
          [1, 2, 3]) = true ∧
    onVerifyHash
        "  0xAAAAAAAAAAAAAAAAAAAAAAAAAAAAAAAAAAAAAAAAAAAAAAAAAAAAAAAAAAAAAAAA " =
      HashVerifyOutcome.queryIssued
        "0xaaaaaaaaaaaaaaaaaaaaaaaaaaaaaaaaaaaaaaaaaaaaaaaaaaaaaaaaaaaaaaaa" :=
  ⟨by decide,
    (verify_file_vs_typed_hash
      (fun _ =>
        "0xaaaaaaaaaaaaaaaaaaaaaaaaaaaaaaaaaaaaaaaaaaaaaaaaaaaaaaaaaaaaaaaa")
      []
      [1, 2, 3]
      "  0xAAAAAAAAAAAAAAAAAAAAAAAAAAAAAAAAAAAAAAAAAAAAAAAAAAAAAAAAAAAAAAAA "
      (by decide) (by decide) (by decide) (by decide)).1⟩

end EvidenceLog
